import Mathlib

/-!
Pyroscope ingestion: stack builder, sample tree walk and the ingest handler.

A shallow embedding of

* `mockStackBuilder` (`pkg/convert/pprof/bench/parser_test.go`), the only implementation of
  the `tree.StackBuilder` interface among the sources;
* the sample tree of `pkg/storage/tree` (`New`, `Insert`, `IterateWithStackBuilder`), whose
  code is not among the sources and which is modelled from the specification and from the
  two tests `TestIterateWithStackBuilder` and `TestIterateWithStackBuilderEmpty`;
* `ingestHandler.ServeHTTP` and `ingestHandler.ingestParamsFromRequest`
  (`pkg/server/ingest.go`).

Go byte slices are lists of bytes, Go maps are finite maps (`AList`), a Go run-time panic is
the result `none`, and the calls a function makes on its collaborators are recorded as a
trace of events. The definitions come first, the theorems follow.
-/

namespace Pyroscope

/-- A Go `[]byte` (and a Go `string`, which is a byte sequence as well). -/
abbrev Bytes := List UInt8

/-- The byte `;`, written between the frames of a stack. -/
def semicolon : UInt8 := 59

/-! ## `mockStackBuilder` -/

namespace Bench

/-- The struct `mockStackBuilder`. The identifiers are `uint64` in Go; they are produced from
`len` of a map and therefore never wrap, so they are natural numbers here. Both maps are
allocated with `make` at every place the sources build the struct, so they are never the nil
map. -/
structure mockStackBuilder where
  ss : List Bytes
  stackID2Stack : AList (fun _ : Nat => Bytes)
  stackID2Val : AList (fun _ : Nat => Nat)
  deriving DecidableEq

/-- The literal `&mockStackBuilder{stackID2Stack: make(...), stackID2Val: make(...)}`. -/
def mockStackBuilder.new : mockStackBuilder :=
  { ss := [], stackID2Stack := ∅, stackID2Val := ∅ }

/-- `func (s *mockStackBuilder) Push(frame []byte)`: `s.ss = append(s.ss, frame)`. -/
def mockStackBuilder.Push (s : mockStackBuilder) (frame : Bytes) : mockStackBuilder :=
  { s with ss := s.ss ++ [frame] }

/-- `func (s *mockStackBuilder) Pop()`: `s.ss = s.ss[0 : len(s.ss)-1]`. With `len(s.ss) = 0`
the upper bound is `-1` and the slice expression panics. -/
def mockStackBuilder.Pop (s : mockStackBuilder) : Option mockStackBuilder :=
  if s.ss.length = 0 then none
  else some { s with ss := s.ss.take (s.ss.length - 1) }

/-- One round of the loop in `Build`:
`if len(res) != 0 { res += ";" }; res += string(bs)`. -/
def buildStep (res : Bytes) (frame : Bytes) : Bytes :=
  (if res.length ≠ 0 then res ++ [semicolon] else res) ++ frame

/-- The string `res` that `Build` computes from the frames `s.ss`. -/
def buildString (ss : List Bytes) : Bytes :=
  ss.foldl buildStep []

/-- `func (s *mockStackBuilder) Build() (stackID uint64)`: the new state and the returned
identifier `uint64(len(s.stackID2Stack))`. -/
def mockStackBuilder.Build (s : mockStackBuilder) : mockStackBuilder × Nat :=
  let res := buildString s.ss
  let id := s.stackID2Stack.keys.length
  ({ s with stackID2Stack := s.stackID2Stack.insert id res }, id)

/-- `func (s *mockStackBuilder) Reset()`: `s.ss = s.ss[:0]`. -/
def mockStackBuilder.Reset (s : mockStackBuilder) : mockStackBuilder :=
  { s with ss := [] }

/-- A call of one of the four methods of the `tree.StackBuilder` interface. -/
inductive Call where
  | push (frame : Bytes)
  | pop
  | build
  | reset
  deriving DecidableEq

/-- The effect of one call: the new state and, for `Build`, the identifier it returned.
`none` is the panic of `Pop`. -/
def mockStackBuilder.call (s : mockStackBuilder) : Call → Option (mockStackBuilder × List Nat)
  | .push frame => some (s.Push frame, [])
  | .pop => (s.Pop).map (fun s' => (s', []))
  | .build => some ((s.Build).1, [(s.Build).2])
  | .reset => some (s.Reset, [])

/-- A sequence of calls, run from left to right; the identifiers returned by the `Build`
calls are collected in call order. `none` when one of the calls panics. -/
def mockStackBuilder.run (s : mockStackBuilder) :
    List Call → Option (mockStackBuilder × List Nat)
  | [] => some (s, [])
  | c :: cs =>
    match s.call c with
    | none => none
    | some (s', ids) =>
      match mockStackBuilder.run s' cs with
      | none => none
      | some (s'', ids') => some (s'', ids ++ ids')

/-- The number of `Build` calls in a sequence of calls. -/
def builds (cs : List Call) : Nat :=
  cs.count Call.build

/-- The keys of `stackID2Stack` are the numbers below `k`. -/
def Numbered (s : mockStackBuilder) (k : Nat) : Prop :=
  s.stackID2Stack.keys.length = k ∧ ∀ i, i ∈ s.stackID2Stack.keys ↔ i < k

end Bench

end Pyroscope

/-! ## The sample tree (`pkg/storage/tree`) -/

namespace Pyroscope

namespace Storage

/-- A stack: the frame labels from the root to the leaf. -/
abbrev Stack := List Bytes

/-- Lexicographic comparison of two lists, by a comparison `lt` of their elements. -/
def lexLt {α : Type} [DecidableEq α] (lt : α → α → Bool) : List α → List α → Bool
  | [], [] => false
  | [], _ :: _ => true
  | _ :: _, [] => false
  | a :: as, b :: bs => lt a b || (decide (a = b) && lexLt lt as bs)

/-- The order of labels, `bytes.Compare(a, b) < 0`: byte by byte, a proper start of a label
before the label. -/
def bytesLt (a b : Bytes) : Bool :=
  lexLt (fun x y => decide (x.toNat < y.toNat)) a b

/-- The order of stacks: label by label, a proper start of a stack before the stack. This
is the order in which a depth-first walk that takes the children in the order of their
labels meets the stacks. -/
def stackLt (a b : Stack) : Bool :=
  lexLt bytesLt a b

/-- Modelled from the spec: the tree node of `pkg/storage/tree`, which is not among the
sources. A node "owns a label fragment relative to its parent, a self-value (numeric,
accumulated by repeated inserts at that exact path), and an ordered set of child Nodes";
the total value "is never stored". -/
inductive Node where
  | mk (label : Bytes) (self : Nat) (children : List Node)

/-- The label of a node. -/
def Node.label : Node → Bytes
  | .mk label _ _ => label

/-- Modelled from the spec: the type `tree.Tree`, which "owns its root Node exclusively". -/
structure Tree where
  root : Node

/-- Modelled from the spec: `tree.New()`, the freshly constructed tree: a root without
value and without children. -/
def New : Tree :=
  { root := .mk [] 0 [] }

/-- Modelled from the spec: the step of `Insert` that goes from a node to its child with
the given label, "creating intermediate nodes as needed", and applies `g` to it. The
children are kept in the order of their labels ("keyed by the first byte of their label
(ties broken lexicographically across the full label)"). -/
def upsert (label : Bytes) (g : Node → Node) : List Node → List Node
  | [] => [g (.mk label 0 [])]
  | c :: cs =>
    if c.label = label then g c :: cs
    else if bytesLt label c.label then g (.mk label 0 []) :: c :: cs
    else c :: upsert label g cs

/-- Modelled from the spec: `Insert(stack, value)` on a node: it "accumulates `value` into
the self-value of the node reached by `stack`, creating intermediate nodes as needed". The
values are `uint64` in the test that calls it, so the sum wraps at `2^64`. -/
def Node.insert : Stack → Nat → Node → Node
  | [], v, .mk label self children => .mk label ((self + v) % 2 ^ 64) children
  | frame :: rest, v, .mk label self children =>
    .mk label self (upsert frame (Node.insert rest v) children)

/-- Modelled from the spec: the method `Insert` of `tree.Tree`. The test writes a stack as
its labels joined by `;`, and the empty text for the empty stack. -/
def Tree.Insert (t : Tree) (stack : Stack) (v : Nat) : Tree :=
  { root := t.root.insert stack v }

/-- A list of inserts, made one after the other. -/
def Tree.InsertAll (t : Tree) : List (Stack × Nat) → Tree
  | [] => t
  | (stack, v) :: rest => (t.Insert stack v).InsertAll rest

mutual

/-- Modelled from the spec: the walk of `IterateWithStackBuilder` below a node whose label
is on the builder already: "a depth-first traversal in a fixed deterministic child order
..., replaying `Push`/`Pop`/`Build` on `builder` ..., and calls `visit(stackID, selfValue)`
once per node ... in traversal order". The spec goes on "including zero-valued and the
empty-root node", which the tests `TestIterateWithStackBuilder` (the node `a;d` gets no
identifier) and `TestIterateWithStackBuilderEmpty` (no call of `visit` on the new tree)
exclude; the model follows the tests and visits the nodes whose self value is not zero. The
result is the builder after the walk and the calls of `visit` in order; `none` is a panic
of `Pop`. -/
def iterateNode : Node → Bench.mockStackBuilder →
    Option (Bench.mockStackBuilder × List (Nat × Nat))
  | .mk _ self children, sb =>
    if self ≠ 0 then
      match iterateChildren children (sb.Build).1 with
      | none => none
      | some (sb', visits) => some (sb', ((sb.Build).2, self) :: visits)
    else iterateChildren children sb

/-- Modelled from the spec: the walk over the children of a node, in their order: the label
of a child is pushed before the walk below it and popped after it. -/
def iterateChildren : List Node → Bench.mockStackBuilder →
    Option (Bench.mockStackBuilder × List (Nat × Nat))
  | [], sb => some (sb, [])
  | c :: cs, sb =>
    match iterateNode c (sb.Push c.label) with
    | none => none
    | some (sb1, visits1) =>
      match sb1.Pop with
      | none => none
      | some sb2 =>
        match iterateChildren cs sb2 with
        | none => none
        | some (sb3, visits2) => some (sb3, visits1 ++ visits2)

end

/-- Modelled from the spec: the method `IterateWithStackBuilder` of `tree.Tree`, run with a
`mockStackBuilder`. The root stands for the empty stack, so its label is not pushed. -/
def Tree.IterateWithStackBuilder (t : Tree) (sb : Bench.mockStackBuilder) :
    Option (Bench.mockStackBuilder × List (Nat × Nat)) :=
  iterateNode t.root sb

/-- The callback of `TestIterateWithStackBuilder`, `sb.stackID2Val[stackID] = v`, applied
to the calls of `visit` in order. `Push`, `Pop` and `Build` never read `stackID2Val`. -/
def recordValues (sb : Bench.mockStackBuilder) : List (Nat × Nat) → Bench.mockStackBuilder
  | [] => sb
  | (stackID, v) :: rest =>
    recordValues { sb with stackID2Val := sb.stackID2Val.insert stackID v } rest

mutual

/-- The stacks below a node that hold a value, with their values, in the order of a
depth-first walk; the stacks are relative to the node. -/
def Node.entries : Node → List (Stack × Nat)
  | .mk _ self children =>
    (if self ≠ 0 then [([], self)] else []) ++ entriesOfChildren children

/-- The stacks below a list of children, each one starting with the label of its child. -/
def entriesOfChildren : List Node → List (Stack × Nat)
  | [] => []
  | c :: cs => c.entries.map (fun e => (c.label :: e.1, e.2)) ++ entriesOfChildren cs

end

/-- The builder `sb`, with identifiers below `k` in use, has walked the stacks `es` below its
current path, and `r` is the result: the walk returns, the calls of `visit` number the
values of `es` from `k` on, the path and `stackID2Val` are as before, the identifiers
below `k` keep their stacks, and the `j`-th stack of `es` is recorded under `k + j`. -/
def Walked (sb : Bench.mockStackBuilder) (k : Nat) (es : List (Stack × Nat))
    (r : Option (Bench.mockStackBuilder × List (Nat × Nat))) : Prop :=
  ∃ sb', r = some (sb', (es.map Prod.snd).enumFrom k) ∧
    sb'.ss = sb.ss ∧ sb'.stackID2Val = sb.stackID2Val ∧
    Bench.Numbered sb' (k + es.length) ∧
    (∀ i, i < k → sb'.stackID2Stack.lookup i = sb.stackID2Stack.lookup i) ∧
    ∀ j e, es[j]? = some e →
      sb'.stackID2Stack.lookup (k + j) = some (Bench.buildString (sb.ss ++ e.1))

/-- The six inserts of `TestIterateWithStackBuilder`: the stacks ``, `a`, `a;b`, `a;c`,
`a;d;e` and `a;d;f`. -/
def testInserts : List (Stack × Nat) :=
  [([], 43), ([[97]], 42), ([[97], [98]], 1), ([[97], [99]], 2),
   ([[97], [100], [101]], 3), ([[97], [100], [102]], 4)]

end Storage

end Pyroscope

namespace Pyroscope

namespace Storage

mutual

/-- The children of the node and of every node below it are in the strict order of their
labels. -/
def Node.Ordered : Node → Prop
  | .mk _ _ children =>
    childrenOrdered children ∧
      (children.map Node.label).Pairwise (fun a b => bytesLt a b = true)

/-- Every node of the list is `Ordered`. -/
def childrenOrdered : List Node → Prop
  | [] => True
  | c :: cs => c.Ordered ∧ childrenOrdered cs

end

end Storage

end Pyroscope

/-! ## The ingest handler (`pkg/server/ingest.go`) -/

namespace Pyroscope

namespace Server

/-- A Go `error` value: either a plain error with its message, or the value built by
`fmt.Errorf` with the verb `%w`, which keeps the formatted message and the wrapped error. -/
inductive GoError where
  | errorString (s : String)
  | wrapError (msg : String) (err : GoError)
  deriving DecidableEq

deriving instance DecidableEq for Except

/-- The method `Error() string`. -/
def GoError.Error : GoError → String
  | .errorString s => s
  | .wrapError msg _ => msg

/-- The method `Unwrap() error`, as `errors.Unwrap` sees it. -/
def GoError.Unwrap : GoError → Option GoError
  | .errorString _ => none
  | .wrapError _ err => some err

/-- The call `fmt.Errorf("name: %w", err)`. -/
def ErrorfName (err : GoError) : GoError :=
  .wrapError ("name: " ++ err.Error) err

/-- The constants `http.StatusBadRequest`, `http.StatusUnprocessableEntity` and
`http.StatusInternalServerError`. -/
def StatusBadRequest : Nat := 400

def StatusUnprocessableEntity : Nat := 422

def StatusInternalServerError : Nat := 500

/-- The types `url.Values` and `http.Header`: a map from a key to a list of values. -/
abbrev Values := List (String × List String)

/-- The method `Get` of `url.Values` and of `http.Header`: the first value stored under the
key, the empty string when there is none. -/
def Values.Get (v : Values) (key : String) : String :=
  match v.lookup key with
  | some (x :: _) => x
  | _ => ""

/-- The parts of `*http.Request` the handler reads: `r.URL.Query()`, `r.Header`, `r.Body`
and `r.Context()`. -/
structure Request (Body Ctx : Type) where
  Query : Values
  Header : Values
  Body : Body
  Context : Ctx

/-- The struct `parser.PutInput`, with the fields the handler fills in. `SampleRate` is a
`uint32`. -/
structure PutInput (Key Time Body : Type) where
  Format : String
  ContentType : String
  Body : Body
  MultipartBoundary : String
  Key : Key
  StartTime : Time
  EndTime : Time
  SampleRate : Nat
  SpyName : String
  Units : String
  AggregationType : String
  deriving DecidableEq

/-- What the handler calls outside `ingest.go`: `segment.ParseKey`, `attime.Parse`, the two
readings of `time.Now()` (for the start and for the end time), `strconv.Atoi`,
`mime.ParseMediaType` and the constants `types.DefaultSampleRate`, `metadata.SamplesUnits`
and `metadata.SumAggregationType`. -/
structure Deps (Key Time : Type) where
  ParseKey : String → Except GoError Key
  attimeParse : String → Time
  nowStart : Time
  nowEnd : Time
  Atoi : String → Except GoError Int
  ParseMediaType : String → Except GoError (String × List (String × String))
  DefaultSampleRate : Nat
  SamplesUnits : String
  SumAggregationType : String

/-- What the handler does to its collaborators, in the order it does it: a line written to
`h.log`, a call of `h.httpUtils.WriteError` (with status, error and message), a call of
`h.parser.Put` and a call of `h.onSuccess`. -/
inductive Event (Key Time Body Ctx : Type) where
  | logErrorf (err : GoError) (format : String) (arg : String)
  | WriteError (status : Nat) (err : Option GoError) (msg : String)
  | Put (ctx : Ctx) (pi : PutInput Key Time Body)
  | onSuccess (pi : PutInput Key Time Body)
  deriving DecidableEq

/-- The function `boundaryFromRequest`. -/
def boundaryFromRequest {Key Time Body Ctx : Type} (d : Deps Key Time) (r : Request Body Ctx) :
    String :=
  let v := r.Header.Get "Content-Type"
  if v = "" then ""
  else
    match d.ParseMediaType v with
    | .error _ => ""
    | .ok (mediatype, params) =>
      if ¬ (mediatype = "multipart/form-data") then ""
      else
        match params.lookup "boundary" with
        | none => ""
        | some boundary => boundary

/-- The conversion `uint32(sampleRate)` of an `int`. -/
def toUint32 (n : Int) : Nat :=
  (n % 2 ^ 32).toNat

/-- The sample rate block of `ingestParamsFromRequest`: the value of `pi.SampleRate` and the
line written to the log. -/
def sampleRateFromQuery {Key Time : Type} (d : Deps Key Time) (sr : String) :
    Nat × List (GoError × String × String) :=
  if sr ≠ "" then
    match d.Atoi sr with
    | .error err => (d.DefaultSampleRate, [(err, "invalid sample rate: %q", sr)])
    | .ok sampleRate => (toUint32 sampleRate, [])
  else (d.DefaultSampleRate, [])

/-- The method `ingestHandler.ingestParamsFromRequest`: the pair it returns (`.error err` for
`nil, err` and `.ok pi` for `&pi, nil`) and the lines it wrote to the log. -/
def ingestParamsFromRequest {Key Time Body Ctx : Type} (d : Deps Key Time)
    (r : Request Body Ctx) :
    Except GoError (PutInput Key Time Body) × List (GoError × String × String) :=
  let q := r.Query
  match d.ParseKey (q.Get "name") with
  | .error err => (.error (ErrorfName err), [])
  | .ok key =>
    let sr := sampleRateFromQuery d (q.Get "sampleRate")
    (.ok {
      Format := q.Get "format"
      ContentType := r.Header.Get "Content-Type"
      Body := r.Body
      MultipartBoundary := boundaryFromRequest d r
      Key := key
      StartTime := if q.Get "from" ≠ "" then d.attimeParse (q.Get "from") else d.nowStart
      EndTime := if q.Get "until" ≠ "" then d.attimeParse (q.Get "until") else d.nowEnd
      SampleRate := sr.1
      SpyName := if q.Get "spyName" ≠ "" then q.Get "spyName" else "unknown"
      Units := if q.Get "units" ≠ "" then q.Get "units" else d.SamplesUnits
      AggregationType :=
        if q.Get "aggregationType" ≠ "" then q.Get "aggregationType"
        else d.SumAggregationType }, sr.2)

/-- The method `ingestHandler.ServeHTTP`, as the trace of what it does. `put` is the method
`Put` of the interface `Parser`; it returns the parsing error and the ingestion error. -/
def ServeHTTP {Key Time Body Ctx : Type} (d : Deps Key Time)
    (put : Ctx → PutInput Key Time Body → Option GoError × Option GoError)
    (r : Request Body Ctx) : List (Event Key Time Body Ctx) :=
  match ingestParamsFromRequest d r with
  | (.error err, log) =>
    log.map (fun l => .logErrorf l.1 l.2.1 l.2.2) ++
      [.WriteError StatusBadRequest (some err) "invalid parameter"]
  | (.ok pi, log) =>
    let (err, ingestErr) := put r.Context pi
    log.map (fun l => .logErrorf l.1 l.2.1 l.2.2) ++ [.Put r.Context pi] ++
      if err ≠ none then
        [.WriteError StatusUnprocessableEntity err "error happened while parsing request body"]
      else if ingestErr ≠ none then
        [.WriteError StatusInternalServerError err "error happened while ingesting data"]
      else [.onSuccess pi]

/-- The calls of `h.parser.Put` in a trace. -/
def putCalls {Key Time Body Ctx : Type} :
    List (Event Key Time Body Ctx) → List (PutInput Key Time Body)
  | [] => []
  | .Put _ pi :: es => pi :: putCalls es
  | _ :: es => putCalls es

/-- The calls of `h.onSuccess` in a trace. -/
def onSuccessCalls {Key Time Body Ctx : Type} :
    List (Event Key Time Body Ctx) → List (PutInput Key Time Body)
  | [] => []
  | .onSuccess pi :: es => pi :: onSuccessCalls es
  | _ :: es => onSuccessCalls es

/-- The calls of `h.httpUtils.WriteError` in a trace: status and error. -/
def writeErrorCalls {Key Time Body Ctx : Type} :
    List (Event Key Time Body Ctx) → List (Nat × Option GoError)
  | [] => []
  | .WriteError status err _ :: es => (status, err) :: writeErrorCalls es
  | _ :: es => writeErrorCalls es

end Server

end Pyroscope

namespace Pyroscope

namespace Server

/-- Collaborators for the examples: keys are strings and the empty name is the only one
rejected, times are numbers, `Atoi` reads `100` and rejects everything else. -/
def exampleDeps : Deps String Nat where
  ParseKey := fun s => if s = "" then .error (.errorString "empty key") else .ok s
  attimeParse := fun _ => 0
  nowStart := 10
  nowEnd := 11
  Atoi := fun s => if s = "100" then .ok 100 else .error (.errorString "invalid syntax")
  ParseMediaType := fun _ => .error (.errorString "no media type")
  DefaultSampleRate := 100
  SamplesUnits := "samples"
  SumAggregationType := "sum"

/-- An example request: `/ingest?name=app&sampleRate=abc`. -/
def exampleRequest : Request Unit Unit where
  Query := [("name", ["app"]), ("sampleRate", ["abc"])]
  Header := []
  Body := ()
  Context := ()

/-- An example request without the `name` parameter. -/
def exampleRequestNoName : Request Unit Unit where
  Query := [("sampleRate", ["100"])]
  Header := []
  Body := ()
  Context := ()

/-- The `PutInput` built from `exampleRequest`. -/
def examplePutInput : PutInput String Nat Unit where
  Format := ""
  ContentType := ""
  Body := ()
  MultipartBoundary := ""
  Key := "app"
  StartTime := 10
  EndTime := 11
  SampleRate := 100
  SpyName := "unknown"
  Units := "samples"
  AggregationType := "sum"

/-- A parser whose `Put` parses well and fails to ingest. -/
def examplePutIngestFails :
    Unit → PutInput String Nat Unit → Option GoError × Option GoError :=
  fun _ _ => (none, some (.errorString "storage unavailable"))

end Server

end Pyroscope

/-! ## Theorems about `mockStackBuilder` -/

namespace Pyroscope

namespace Bench

theorem buildString_nil : buildString [] = [] := rfl

theorem buildString_append (ss : List Bytes) (frame : Bytes) :
    buildString (ss ++ [frame]) = buildStep (buildString ss) frame := by
  simp [buildString, List.foldl_append]

theorem buildStep_ne_nil (res frame : Bytes) (h : res ≠ []) :
    buildStep res frame = res ++ semicolon :: frame := by
  have : res.length ≠ 0 := by simpa using h
  simp [buildStep, this]

theorem foldl_buildStep_of_ne_nil (fs : List Bytes) (res : Bytes) (h : res ≠ []) :
    fs.foldl buildStep res = res ++ (fs.map (fun f => semicolon :: f)).flatten := by
  induction fs generalizing res with
  | nil => simp
  | cons f fs ih =>
    have hne : buildStep res f ≠ [] := by
      rw [buildStep_ne_nil res f h]; simp [h]
    rw [List.foldl_cons, ih _ hne, buildStep_ne_nil res f h]
    simp

theorem intercalate_cons (f : Bytes) (fs : List Bytes) :
    List.intercalate [semicolon] (f :: fs) = f ++ (fs.map (fun g => semicolon :: g)).flatten := by
  induction fs generalizing f with
  | nil => simp [List.intercalate]
  | cons g gs ih =>
    have h := ih g
    simp only [List.intercalate, List.intersperse, List.flatten_cons] at h ⊢
    rw [h]
    simp

theorem buildString_eq_intercalate (ss : List Bytes)
    (h : ss = [] ∨ ∃ frame rest, ss = frame :: rest ∧ frame ≠ []) :
    buildString ss = List.intercalate [semicolon] ss := by
  rcases h with h | ⟨frame, rest, h, hne⟩
  · subst h; rfl
  · subst h
    rw [intercalate_cons]
    have : buildStep [] frame = frame := by simp [buildStep]
    rw [buildString, List.foldl_cons, this, foldl_buildStep_of_ne_nil rest frame hne]

end Bench

end Pyroscope

namespace Pyroscope

namespace Bench

theorem Numbered_Build (s : mockStackBuilder) (k : Nat) (h : Numbered s k) :
    Numbered (s.Build).1 (k + 1) ∧ (s.Build).2 = k ∧
      ∀ i, i < k → (s.Build).1.stackID2Stack.lookup i = s.stackID2Stack.lookup i := by
  obtain ⟨hlen, hmem⟩ := h
  have hk : k ∉ s.stackID2Stack.keys := by
    intro hin
    exact absurd ((hmem k).1 hin) (lt_irrefl k)
  refine ⟨⟨?_, ?_⟩, hlen, ?_⟩
  · simp only [mockStackBuilder.Build, AList.keys_insert, hlen, List.length_cons]
    rw [List.erase_of_not_mem hk, hlen]
  · intro i
    simp only [mockStackBuilder.Build, AList.keys_insert, hlen, List.mem_cons]
    rw [List.erase_of_not_mem hk, hmem i]
    omega
  · intro i hi
    simp only [mockStackBuilder.Build, hlen]
    exact AList.lookup_insert_ne (Nat.ne_of_lt hi)

theorem Numbered_call (s s' : mockStackBuilder) (k : Nat) (c : Call) (ids : List Nat)
    (h : Numbered s k) (hc : s.call c = some (s', ids)) :
    Numbered s' (k + builds [c]) ∧ ids = List.range' k (builds [c]) ∧
      ∀ i, i < k → s'.stackID2Stack.lookup i = s.stackID2Stack.lookup i := by
  cases c with
  | push frame =>
    simp only [mockStackBuilder.call, Option.some.injEq, Prod.mk.injEq] at hc
    obtain ⟨rfl, rfl⟩ := hc
    exact ⟨h, by simp [builds], fun _ _ => rfl⟩
  | pop =>
    simp only [mockStackBuilder.call, mockStackBuilder.Pop] at hc
    split at hc
    · simp at hc
    · simp only [Option.map_some', Option.some.injEq, Prod.mk.injEq] at hc
      obtain ⟨rfl, rfl⟩ := hc
      exact ⟨h, by simp [builds], fun _ _ => rfl⟩
  | build =>
    simp only [mockStackBuilder.call, Option.some.injEq, Prod.mk.injEq] at hc
    obtain ⟨rfl, rfl⟩ := hc
    obtain ⟨h1, h2, h3⟩ := Numbered_Build s k h
    refine ⟨by simpa [builds] using h1, by simp [builds, h2, List.range'], h3⟩
  | reset =>
    simp only [mockStackBuilder.call, Option.some.injEq, Prod.mk.injEq] at hc
    obtain ⟨rfl, rfl⟩ := hc
    exact ⟨h, by simp [builds], fun _ _ => rfl⟩

theorem builds_cons (c : Call) (cs : List Call) : builds (c :: cs) = builds [c] + builds cs := by
  simp only [builds]
  rw [show c :: cs = [c] ++ cs from rfl, List.count_append]

theorem Numbered_run (cs : List Call) (s s' : mockStackBuilder) (k : Nat) (ids : List Nat)
    (h : Numbered s k) (hr : s.run cs = some (s', ids)) :
    Numbered s' (k + builds cs) ∧ ids = List.range' k (builds cs) ∧
      ∀ i, i < k → s'.stackID2Stack.lookup i = s.stackID2Stack.lookup i := by
  induction cs generalizing s k ids with
  | nil =>
    simp only [mockStackBuilder.run, Option.some.injEq, Prod.mk.injEq] at hr
    obtain ⟨rfl, rfl⟩ := hr
    exact ⟨by simpa [builds] using h, by simp [builds], fun _ _ => rfl⟩
  | cons c cs ih =>
    simp only [mockStackBuilder.run] at hr
    cases hc : s.call c with
    | none => simp [hc] at hr
    | some p =>
      obtain ⟨s1, ids1⟩ := p
      simp only [hc] at hr
      cases hr' : s1.run cs with
      | none => simp [hr'] at hr
      | some q =>
        obtain ⟨s2, ids2⟩ := q
        simp only [hr', Option.some.injEq, Prod.mk.injEq] at hr
        obtain ⟨rfl, rfl⟩ := hr
        obtain ⟨a1, a2, a3⟩ := Numbered_call s s1 k c ids1 h hc
        obtain ⟨b1, b2, b3⟩ := ih s1 (k + builds [c]) ids2 a1 hr'
        refine ⟨?_, ?_, ?_⟩
        · rw [builds_cons, ← Nat.add_assoc]; exact b1
        · rw [a2, b2, builds_cons c cs, Nat.add_comm (builds [c]) (builds cs)]
          exact List.range'_append_1 k (builds [c]) (builds cs)
        · intro i hi
          rw [b3 i (by omega), a3 i hi]

theorem Numbered_new (ss : List Bytes) (vals : AList (fun _ : Nat => Nat)) :
    Numbered { ss := ss, stackID2Stack := ∅, stackID2Val := vals } 0 := by
  simp [Numbered]

end Bench

end Pyroscope

namespace Pyroscope

namespace Bench

/-- C4: on a builder created with an empty `stackID2Stack` map and changed only by `Push`,
`Pop`, `Build` and `Reset`, after a sequence of calls with `k` calls of `Build` the keys of
`stackID2Stack` are exactly the numbers below `k`, the calls of `Build` returned
`0, 1, ..., k-1` in that order (so no identifier was returned twice), the next `Build`
returns `k`, and whatever calls follow, the stack recorded under an identifier below `k`
stays as it is and none of these identifiers is returned again. -/
theorem mockStackBuilder_ids_sequential (ss : List Bytes) (vals : AList (fun _ : Nat => Nat))
    (cs : List Call) (s : mockStackBuilder) (ids : List Nat)
    (hrun : mockStackBuilder.run { ss := ss, stackID2Stack := ∅, stackID2Val := vals } cs
      = some (s, ids)) :
    (∀ i, i ∈ s.stackID2Stack.keys ↔ i < builds cs) ∧
    s.stackID2Stack.keys.length = builds cs ∧
    ids = List.range (builds cs) ∧
    ids.Nodup ∧
    (s.Build).2 = builds cs ∧
    ∀ (cs' : List Call) (s' : mockStackBuilder) (ids' : List Nat),
      s.run cs' = some (s', ids') →
        (∀ i, i < builds cs → s'.stackID2Stack.lookup i = s.stackID2Stack.lookup i) ∧
        (∀ j, j ∈ ids' → j ∉ ids) := by
  obtain ⟨h1, h2, _⟩ := Numbered_run cs _ s 0 ids (Numbered_new ss vals) hrun
  rw [Nat.zero_add] at h1
  have hids : ids = List.range (builds cs) := by
    rw [h2, List.range_eq_range']
  refine ⟨h1.2, h1.1, hids, ?_, (Numbered_Build s _ h1).2.1, ?_⟩
  · rw [hids]; exact List.nodup_range _
  · intro cs' s' ids' hr'
    obtain ⟨_, b2, b3⟩ := Numbered_run cs' s s' (builds cs) ids' h1 hr'
    refine ⟨b3, ?_⟩
    intro j hj hj'
    rw [b2, List.mem_range'_1] at hj
    rw [hids, List.mem_range] at hj'
    omega

/-- Witness for C4: after push `a`, build, push `b`, build the identifiers returned are 0
and 1, the keys are the numbers below 2 and the next `Build` returns 2. -/
theorem mockStackBuilder_ids_sequential_witness :
    mockStackBuilder.run mockStackBuilder.new [.push [97], .build, .push [98], .build]
      = some ((((mockStackBuilder.new.Push [97]).Build).1.Push [98]).Build.1, [0, 1]) ∧
    (∀ i,
      i ∈ ((((mockStackBuilder.new.Push [97]).Build).1.Push [98]).Build.1).stackID2Stack.keys
        ↔ i < 2) ∧
    ((((mockStackBuilder.new.Push [97]).Build).1.Push [98]).Build.1.Build).2 = 2 :=
  have h := mockStackBuilder_ids_sequential [] ∅ [.push [97], .build, .push [98], .build]
    (((mockStackBuilder.new.Push [97]).Build).1.Push [98]).Build.1 [0, 1] (by rfl)
  ⟨by rfl, h.1, h.2.2.2.2.1⟩

/-- C3 as stated fails: on a fresh builder two calls of `Build` with the same (empty)
current path return the identifiers 0 and 1. -/
theorem Build_same_path_new_id :
    (mockStackBuilder.new.Build).1.ss = mockStackBuilder.new.ss ∧
    (mockStackBuilder.new.Build).2 = 0 ∧
    ((mockStackBuilder.new.Build).1.Build).2 = 1 ∧
    ((mockStackBuilder.new.Build).1.Build).2 ≠ (mockStackBuilder.new.Build).2 := by
  decide

/-- C3, amended: `Build` never looks at the paths built before. On a builder created with an
empty `stackID2Stack` map, `Build` returns the number of `Build` calls made so far, whatever
the current path; so a later `Build` returns a larger identifier, also when its current path
equals the earlier one, and the earlier identifier keeps the stack recorded for it. -/
theorem Build_returns_call_count (ss : List Bytes) (vals : AList (fun _ : Nat => Nat))
    (cs cs' : List Call) (s s' : mockStackBuilder) (ids ids' : List Nat)
    (hrun : mockStackBuilder.run { ss := ss, stackID2Stack := ∅, stackID2Val := vals } cs
      = some (s, ids))
    (hrun' : (s.Build).1.run cs' = some (s', ids')) :
    (s.Build).2 = builds cs ∧
    (s'.Build).2 = builds cs + 1 + builds cs' ∧
    (s.Build).2 < (s'.Build).2 ∧
    (s'.Build).1.stackID2Stack.lookup (s.Build).2 = some (buildString s.ss) := by
  obtain ⟨h1, _, _⟩ := Numbered_run cs _ s 0 ids (Numbered_new ss vals) hrun
  rw [Nat.zero_add] at h1
  obtain ⟨a1, a2, _⟩ := Numbered_Build s _ h1
  obtain ⟨b1, _, b3⟩ := Numbered_run cs' _ s' _ ids' a1 hrun'
  obtain ⟨_, c2, c3⟩ := Numbered_Build s' _ b1
  refine ⟨a2, c2, by omega, ?_⟩
  rw [a2, c3 _ (by omega), b3 _ (by omega)]
  simp only [mockStackBuilder.Build, h1.1]
  exact AList.lookup_insert _

/-- Witness for C3 amended: the path `a` is built, popped, pushed again and built again; the
two calls of `Build` see the same path and return 0 and 1. -/
theorem Build_returns_call_count_witness :
    mockStackBuilder.run mockStackBuilder.new [.push [97]]
      = some (mockStackBuilder.new.Push [97], []) ∧
    ((mockStackBuilder.new.Push [97]).Build).1.run [.pop, .push [97]]
      = some (((mockStackBuilder.new.Push [97]).Build).1, []) ∧
    ((mockStackBuilder.new.Push [97]).Build).2 = 0 ∧
    (((mockStackBuilder.new.Push [97]).Build).1.Build).2 = 1 ∧
    (((mockStackBuilder.new.Push [97]).Build).1.Build).1.stackID2Stack.lookup 0 = some [97] ∧
    (((mockStackBuilder.new.Push [97]).Build).1.Build).1.stackID2Stack.lookup 1 = some [97] :=
  have h := Build_returns_call_count [] ∅ [.push [97]] [.pop, .push [97]]
    (mockStackBuilder.new.Push [97]) ((mockStackBuilder.new.Push [97]).Build).1
    [] [] (by rfl) (by rfl)
  ⟨by rfl, by rfl, h.1, h.2.1, h.2.2.2, by decide⟩

end Bench

end Pyroscope

namespace Pyroscope

namespace Bench

/-- C5: `Reset` empties the current path and leaves `stackID2Stack` and `stackID2Val` as they
are; a `Build` that follows returns the same identifier a `Build` before the `Reset` would
have returned (the size of `stackID2Stack`), records the empty stack under it, and every
other identifier keeps what was recorded for it. -/
theorem Reset_keeps_ids (s : mockStackBuilder) :
    s.Reset.ss = [] ∧
    s.Reset.stackID2Stack = s.stackID2Stack ∧
    s.Reset.stackID2Val = s.stackID2Val ∧
    (s.Reset.Build).2 = s.stackID2Stack.keys.length ∧
    (s.Reset.Build).2 = (s.Build).2 ∧
    (s.Reset.Build).1.stackID2Stack.lookup (s.Reset.Build).2 = some [] ∧
    ∀ i b, s.stackID2Stack.lookup i = some b →
      s.Reset.stackID2Stack.lookup i = some b ∧
      (i = (s.Reset.Build).2 ∨ (s.Reset.Build).1.stackID2Stack.lookup i = some b) := by
  refine ⟨rfl, rfl, rfl, rfl, rfl, ?_, ?_⟩
  · simp only [mockStackBuilder.Build, mockStackBuilder.Reset]
    exact AList.lookup_insert _
  · intro i b h
    refine ⟨h, ?_⟩
    by_cases hi : i = (s.Reset.Build).2
    · exact Or.inl hi
    · right
      simp only [mockStackBuilder.Build, mockStackBuilder.Reset] at hi ⊢
      rw [AList.lookup_insert_ne hi]
      exact h

/-- Witness for C5: after `a` was pushed and built, `Reset` keeps identifier 0 for `a` and the
next `Build` records the empty stack under 1. -/
theorem Reset_keeps_ids_witness :
    ((mockStackBuilder.new.Push [97]).Build).1.stackID2Stack.lookup 0 = some [97] ∧
    ((mockStackBuilder.new.Push [97]).Build).1.Reset.stackID2Stack.lookup 0 = some [97] ∧
    ((((mockStackBuilder.new.Push [97]).Build).1.Reset.Build).2 = 1) ∧
    (((mockStackBuilder.new.Push [97]).Build).1.Reset.Build).1.stackID2Stack.lookup 1
      = some [] :=
  have h := Reset_keeps_ids ((mockStackBuilder.new.Push [97]).Build).1
  ⟨by decide, (h.2.2.2.2.2.2 0 [97] (by decide)).1, by decide, by decide⟩

theorem Pop_eq_none_iff (s : mockStackBuilder) : s.Pop = none ↔ s.ss = [] := by
  simp [mockStackBuilder.Pop]

theorem Pop_of_append (s : mockStackBuilder) (front : List Bytes) (last : Bytes)
    (h : s.ss = front ++ [last]) : s.Pop = some { s with ss := front } := by
  simp [mockStackBuilder.Pop, h]

theorem Pop_eq_some (s s' : mockStackBuilder) (h : s.Pop = some s') :
    s'.stackID2Stack = s.stackID2Stack ∧ s'.stackID2Val = s.stackID2Val ∧
      ∃ last, s.ss = s'.ss ++ [last] := by
  simp only [mockStackBuilder.Pop] at h
  split at h
  · simp at h
  · rename_i hne
    simp only [Option.some.injEq] at h
    subst h
    refine ⟨rfl, rfl, ?_⟩
    have hne' : s.ss ≠ [] := by
      intro h0; exact hne (by simp [h0])
    refine ⟨s.ss.getLast hne', ?_⟩
    simp only
    rw [← List.dropLast_eq_take]
    exact (List.dropLast_append_getLast hne').symm

/-- C6: `Pop` panics exactly when the current path is empty; on a path `front ++ [last]` it
leaves `front` and changes neither map; so `Pop` after `Push` gives the state back. -/
theorem Pop_removes_last (s : mockStackBuilder) :
    (s.Pop = none ↔ s.ss = []) ∧
    (∀ front last, s.ss = front ++ [last] → s.Pop = some { s with ss := front }) ∧
    (∀ s', s.Pop = some s' →
      s'.stackID2Stack = s.stackID2Stack ∧ s'.stackID2Val = s.stackID2Val ∧
      ∃ last, s.ss = s'.ss ++ [last]) ∧
    ∀ frame, (s.Push frame).Pop = some s :=
  ⟨Pop_eq_none_iff s, Pop_of_append s, Pop_eq_some s,
    fun frame => Pop_of_append (s.Push frame) s.ss frame rfl⟩

/-- Witness for C6: on the path `a`, `b` the call of `Pop` leaves the path `a`. -/
theorem Pop_removes_last_witness :
    ((mockStackBuilder.new.Push [97]).Push [98]).ss = [[97]] ++ [[98]] ∧
    ((mockStackBuilder.new.Push [97]).Push [98]).Pop = some (mockStackBuilder.new.Push [97]) ∧
    mockStackBuilder.new.Pop = none :=
  ⟨by decide,
   (Pop_removes_last ((mockStackBuilder.new.Push [97]).Push [98])).2.1 [[97]] [98] (by decide),
   by decide⟩

/-- C10: when the current path is empty or starts with a non-empty frame, the stack `Build`
records under the identifier it returns is the frames joined by `;` in push order (the empty
string for the empty path). For every path, one more frame is preceded by `;` exactly when
the text built from the frames before it is non-empty. -/
theorem Build_records_joined (s : mockStackBuilder)
    (h : s.ss = [] ∨ ∃ frame rest, s.ss = frame :: rest ∧ frame ≠ []) :
    (s.Build).1.stackID2Stack.lookup (s.Build).2
      = some (List.intercalate [semicolon] s.ss) ∧
    buildString [] = [] ∧
    ∀ (ss : List Bytes) (frame : Bytes),
      buildString (ss ++ [frame]) =
        if buildString ss = [] then buildString ss ++ frame
        else buildString ss ++ [semicolon] ++ frame := by
  refine ⟨?_, rfl, ?_⟩
  · rw [← buildString_eq_intercalate s.ss h]
    simp only [mockStackBuilder.Build]
    exact AList.lookup_insert _
  · intro ss frame
    rw [buildString_append]
    by_cases h0 : buildString ss = []
    · simp [buildStep, h0]
    · rw [if_neg h0, buildStep_ne_nil _ _ h0]
      simp

/-- Witness for C10: the path `a`, `d`, `e` is recorded as `a;d;e`. -/
theorem Build_records_joined_witness :
    (mockStackBuilder.Build
        { mockStackBuilder.new with ss := [[97], [100], [101]] }).1.stackID2Stack.lookup
        (mockStackBuilder.Build { mockStackBuilder.new with ss := [[97], [100], [101]] }).2
      = some [97, 59, 100, 59, 101] :=
  (Build_records_joined { mockStackBuilder.new with ss := [[97], [100], [101]] }
    (Or.inr ⟨[97], [[100], [101]], rfl, by decide⟩)).1

end Bench

end Pyroscope

/-! ## Theorems about the walk of `IterateWithStackBuilder` -/

namespace Pyroscope

namespace Storage

open Bench

theorem Walked_nil (sb : mockStackBuilder) (k : Nat) (h : Numbered sb k) :
    Walked sb k [] (some (sb, [])) := by
  refine ⟨sb, rfl, rfl, rfl, by simpa using h, fun _ _ => rfl, ?_⟩
  intro j e he
  simp at he

theorem Walked_build (sb sb' : mockStackBuilder) (k self : Nat) (es : List (Stack × Nat))
    (visits : List (Nat × Nat)) (h : Numbered sb k)
    (hw : Walked (sb.Build).1 (k + 1) es (some (sb', visits))) :
    Walked sb k (([], self) :: es) (some (sb', ((sb.Build).2, self) :: visits)) := by
  obtain ⟨sb1, h1, h2, h3, h4, h5, h6⟩ := hw
  obtain ⟨_, b2, b3⟩ := Numbered_Build sb k h
  simp only [Option.some.injEq, Prod.mk.injEq] at h1
  obtain ⟨rfl, rfl⟩ := h1
  refine ⟨sb', ?_, h2, h3, ?_, ?_, ?_⟩
  · simp [List.enumFrom, b2]
  · have : k + (([], self) :: es).length = k + 1 + es.length := by
      simp only [List.length_cons]; omega
    rw [this]; exact h4
  · intro i hi
    rw [h5 i (by omega), b3 i hi]
  · intro j e he
    cases j with
    | zero =>
      simp only [List.getElem?_cons_zero, Option.some.injEq] at he
      subst he
      rw [Nat.add_zero, h5 k (by omega)]
      simp only [mockStackBuilder.Build, h.1, List.append_nil]
      exact AList.lookup_insert _
    | succ j =>
      simp only [List.getElem?_cons_succ] at he
      have := h6 j e he
      rw [show k + (j + 1) = k + 1 + j by omega, this]
      rfl

theorem Walked_child (sb sb1 sb3 : mockStackBuilder) (k : Nat) (label : Bytes)
    (es1 es2 : List (Stack × Nat)) (visits1 visits2 : List (Nat × Nat))
    (hw1 : Walked (sb.Push label) k es1 (some (sb1, visits1)))
    (hw2 : ∀ sb2, sb1.Pop = some sb2 →
      Walked sb2 (k + es1.length) es2 (some (sb3, visits2))) :
    ∃ sb2, sb1.Pop = some sb2 ∧ sb2.ss = sb.ss ∧
      Walked sb k (es1.map (fun e => (label :: e.1, e.2)) ++ es2)
        (some (sb3, visits1 ++ visits2)) := by
  obtain ⟨sb1', h1, h2, h3, h4, h5, h6⟩ := hw1
  simp only [Option.some.injEq, Prod.mk.injEq] at h1
  obtain ⟨rfl, rfl⟩ := h1
  have hpop : sb1.Pop = some { sb1 with ss := sb.ss } :=
    Pop_of_append sb1 sb.ss label (by rw [h2]; rfl)
  refine ⟨_, hpop, rfl, ?_⟩
  obtain ⟨sb3', g1, g2, g3, g4, g5, g6⟩ := hw2 _ hpop
  simp only [Option.some.injEq, Prod.mk.injEq] at g1
  obtain ⟨rfl, rfl⟩ := g1
  refine ⟨sb3, ?_, ?_, ?_, ?_, ?_, ?_⟩
  · simp [List.enumFrom_append, Function.comp_def]
  · rw [g2]
  · rw [g3]; exact h3
  · have : k + (es1.map (fun e => (label :: e.1, e.2)) ++ es2).length
        = k + es1.length + es2.length := by
      simp only [List.length_append, List.length_map]; omega
    rw [this]; exact g4
  · intro i hi
    rw [g5 i (by omega)]
    exact h5 i hi
  · intro j e he
    by_cases hj : j < es1.length
    · rw [List.getElem?_append_left (by simpa using hj)] at he
      simp only [List.getElem?_map, Option.map_eq_some'] at he
      obtain ⟨e1, he1, rfl⟩ := he
      rw [g5 (k + j) (by omega)]
      show AList.lookup (k + j) sb1.stackID2Stack = _
      rw [h6 j e1 he1]
      simp [mockStackBuilder.Push]
    · rw [List.getElem?_append_right (by simpa using hj)] at he
      simp only [List.length_map] at he
      have := g6 (j - es1.length) e he
      rw [show k + es1.length + (j - es1.length) = k + j by omega] at this
      rw [this]

mutual

theorem iterateNode_Walked : ∀ (n : Node) (sb : mockStackBuilder) (k : Nat),
    Numbered sb k → Walked sb k n.entries (iterateNode n sb)
  | .mk label self children, sb, k, h => by
    by_cases hs : self = 0
    · subst hs
      simp only [iterateNode, Node.entries, ne_eq, not_true_eq_false, if_false, List.nil_append]
      exact iterateChildren_Walked children sb k h
    · have hw := iterateChildren_Walked children (sb.Build).1 (k + 1) (Numbered_Build sb k h).1
      simp only [iterateNode, Node.entries, ne_eq, hs, not_false_eq_true, if_true,
        List.singleton_append]
      obtain ⟨sb', h1, hrest⟩ := hw
      rw [h1]
      exact Walked_build sb sb' k self _ _ h ⟨sb', rfl, hrest⟩

theorem iterateChildren_Walked : ∀ (cs : List Node) (sb : mockStackBuilder) (k : Nat),
    Numbered sb k → Walked sb k (entriesOfChildren cs) (iterateChildren cs sb)
  | [], sb, k, h => by
    simp only [iterateChildren, entriesOfChildren]
    exact Walked_nil sb k h
  | c :: cs, sb, k, h => by
    have hw1 := iterateNode_Walked c (sb.Push c.label) k h
    obtain ⟨sb1, h1, hrest1⟩ := hw1
    have hnum : ∀ sb2, sb1.Pop = some sb2 → Numbered sb2 (k + c.entries.length) := by
      intro sb2 hp
      obtain ⟨hm, _, _⟩ := Pop_eq_some sb1 sb2 hp
      have := hrest1.2.2.1
      simpa [Numbered, hm] using this
    have hpop : ∃ sb2, sb1.Pop = some sb2 :=
      ⟨_, Pop_of_append sb1 sb.ss c.label (by rw [hrest1.1]; rfl)⟩
    obtain ⟨sb2, hp⟩ := hpop
    have hw2 := iterateChildren_Walked cs sb2 (k + c.entries.length) (hnum sb2 hp)
    obtain ⟨sb3, h3, hrest3⟩ := hw2
    simp only [iterateChildren, entriesOfChildren, h1, hp, h3]
    have := Walked_child sb sb1 sb3 k c.label c.entries (entriesOfChildren cs) _ _
      ⟨sb1, rfl, hrest1⟩
      (fun sb2' hp' => by
        have : sb2' = sb2 := by rw [hp] at hp'; exact (Option.some.inj hp').symm
        subst this
        exact ⟨sb3, rfl, hrest3⟩)
    obtain ⟨_, _, _, hfin⟩ := this
    exact hfin

end

end Storage

end Pyroscope

/-! ## Theorems about the order of the children -/

namespace Pyroscope

namespace Storage

open Bench

theorem lexLt_trans {α : Type} [DecidableEq α] (lt : α → α → Bool)
    (htrans : ∀ a b c, lt a b = true → lt b c = true → lt a c = true) :
    ∀ x y z : List α, lexLt lt x y = true → lexLt lt y z = true → lexLt lt x z = true
  | [], [], _, h, _ => by simp [lexLt] at h
  | [], _ :: _, [], _, h => by simp [lexLt] at h
  | [], _ :: _, _ :: _, _, _ => by simp [lexLt]
  | _ :: _, [], _, h, _ => by simp [lexLt] at h
  | _ :: _, _ :: _, [], _, h => by simp [lexLt] at h
  | a :: as, b :: bs, c :: cs, h1, h2 => by
    simp only [lexLt, Bool.or_eq_true, Bool.and_eq_true, decide_eq_true_eq] at h1 h2 ⊢
    rcases h1 with h1 | ⟨rfl, h1⟩
    · rcases h2 with h2 | ⟨rfl, _⟩
      · exact Or.inl (htrans _ _ _ h1 h2)
      · exact Or.inl h1
    · rcases h2 with h2 | ⟨rfl, h2⟩
      · exact Or.inl h2
      · exact Or.inr ⟨rfl, lexLt_trans lt htrans as bs cs h1 h2⟩

theorem lexLt_total {α : Type} [DecidableEq α] (lt : α → α → Bool)
    (htotal : ∀ a b, lt a b = true ∨ a = b ∨ lt b a = true) :
    ∀ x y : List α, lexLt lt x y = true ∨ x = y ∨ lexLt lt y x = true
  | [], [] => Or.inr (Or.inl rfl)
  | [], _ :: _ => by simp [lexLt]
  | _ :: _, [] => by simp [lexLt]
  | a :: as, b :: bs => by
    simp only [lexLt, Bool.or_eq_true, Bool.and_eq_true, decide_eq_true_eq, List.cons.injEq]
    rcases htotal a b with h | rfl | h
    · exact Or.inl (Or.inl h)
    · rcases lexLt_total lt htotal as bs with h | rfl | h
      · exact Or.inl (Or.inr ⟨rfl, h⟩)
      · exact Or.inr (Or.inl ⟨rfl, rfl⟩)
      · exact Or.inr (Or.inr (Or.inr ⟨rfl, h⟩))
    · exact Or.inr (Or.inr (Or.inl h))

theorem lexLt_irrefl {α : Type} [DecidableEq α] (lt : α → α → Bool)
    (hirrefl : ∀ a, lt a a = false) : ∀ x : List α, lexLt lt x x = false
  | [] => rfl
  | a :: as => by
    simp only [lexLt, hirrefl, decide_True, Bool.true_and, Bool.false_or]
    exact lexLt_irrefl lt hirrefl as

theorem bytesLt_trans (a b c : Bytes) (h1 : bytesLt a b = true) (h2 : bytesLt b c = true) :
    bytesLt a c = true := by
  refine lexLt_trans _ ?_ a b c h1 h2
  intro x y z hxy hyz
  simp only [decide_eq_true_eq] at hxy hyz ⊢
  exact Nat.lt_trans hxy hyz

theorem bytesLt_total (a b : Bytes) : bytesLt a b = true ∨ a = b ∨ bytesLt b a = true := by
  refine lexLt_total _ ?_ a b
  intro x y
  simp only [decide_eq_true_eq]
  rcases Nat.lt_trichotomy x.toNat y.toNat with h | h | h
  · exact Or.inl h
  · exact Or.inr (Or.inl (UInt8.ext h))
  · exact Or.inr (Or.inr h)

theorem bytesLt_irrefl (a : Bytes) : bytesLt a a = false := by
  refine lexLt_irrefl _ ?_ a
  intro x
  simp

theorem stackLt_trans (a b c : Stack) (h1 : stackLt a b = true) (h2 : stackLt b c = true) :
    stackLt a c = true :=
  lexLt_trans _ bytesLt_trans a b c h1 h2

theorem stackLt_irrefl (a : Stack) : stackLt a a = false :=
  lexLt_irrefl _ bytesLt_irrefl a

theorem stackLt_total (a b : Stack) : stackLt a b = true ∨ a = b ∨ stackLt b a = true :=
  lexLt_total _ bytesLt_total a b

end Storage

end Pyroscope

/-! ## Theorems about `Insert` -/

namespace Pyroscope

namespace Storage

open Bench

theorem Node.insert_label (stack : Stack) (v : Nat) (n : Node) :
    (n.insert stack v).label = n.label := by
  cases n with
  | mk label self children =>
    cases stack with
    | nil => rfl
    | cons frame rest => rfl

theorem upsert_label_mem (label : Bytes) (g : Node → Node)
    (hg : ∀ n, (g n).label = n.label) (cs : List Node) :
    ∀ x, x ∈ (upsert label g cs).map Node.label → x = label ∨ x ∈ cs.map Node.label := by
  induction cs with
  | nil =>
    intro x hx
    simp only [upsert, List.map_cons, List.map_nil, List.mem_singleton] at hx
    left; rw [hx, hg]; rfl
  | cons c cs ih =>
    intro x hx
    simp only [upsert] at hx
    split at hx
    · right
      simpa [hg] using hx
    · split at hx
      · simp only [List.map_cons, List.mem_cons] at hx
        rcases hx with hx | hx
        · left; rw [hx, hg]; rfl
        · right; simpa using hx
      · simp only [List.map_cons, List.mem_cons] at hx
        rcases hx with hx | hx
        · right; simp [hx]
        · rcases ih x hx with h | h
          · exact Or.inl h
          · right; simp only [List.map_cons, List.mem_cons]; exact Or.inr h

theorem upsert_labels_sorted (label : Bytes) (g : Node → Node)
    (hg : ∀ n, (g n).label = n.label) (cs : List Node)
    (h : (cs.map Node.label).Pairwise (fun a b => bytesLt a b = true)) :
    ((upsert label g cs).map Node.label).Pairwise (fun a b => bytesLt a b = true) := by
  induction cs with
  | nil => simp [upsert]
  | cons c cs ih =>
    simp only [List.map_cons, List.pairwise_cons] at h
    obtain ⟨hc, hcs⟩ := h
    simp only [upsert]
    split
    · simp only [List.map_cons, List.pairwise_cons, hg]
      exact ⟨hc, hcs⟩
    · rename_i hne
      split
      · rename_i hlt
        simp only [List.map_cons, List.pairwise_cons, List.mem_cons, hg]
        refine ⟨?_, hc, hcs⟩
        intro x hx
        rcases hx with rfl | hx
        · exact hlt
        · exact bytesLt_trans _ _ _ hlt (hc x hx)
      · rename_i hnlt
        simp only [List.map_cons, List.pairwise_cons]
        refine ⟨?_, ih hcs⟩
        intro x hx
        rcases upsert_label_mem label g hg cs x hx with rfl | hx
        · rcases bytesLt_total c.label x with h | h | h
          · exact h
          · exact absurd h hne
          · exact absurd h hnlt
        · exact hc x hx

theorem upsert_childrenOrdered (label : Bytes) (g : Node → Node)
    (hg : ∀ n, n.Ordered → (g n).Ordered) (cs : List Node) (h : childrenOrdered cs) :
    childrenOrdered (upsert label g cs) := by
  have hnew : (g (.mk label 0 [])).Ordered := hg _ (by simp [Node.Ordered, childrenOrdered])
  induction cs with
  | nil => simp [upsert, childrenOrdered, hnew]
  | cons c cs ih =>
    simp only [childrenOrdered] at h
    simp only [upsert]
    split
    · simp only [childrenOrdered]; exact ⟨hg c h.1, h.2⟩
    · split
      · simp only [childrenOrdered]; exact ⟨hnew, h.1, h.2⟩
      · simp only [childrenOrdered]; exact ⟨h.1, ih h.2⟩

theorem Node.insert_Ordered (stack : Stack) (v : Nat) :
    ∀ n : Node, n.Ordered → (n.insert stack v).Ordered := by
  induction stack with
  | nil =>
    intro n h
    cases n with
    | mk label self children => simpa [Node.insert, Node.Ordered] using h
  | cons frame rest ih =>
    intro n h
    cases n with
    | mk label self children =>
      simp only [Node.Ordered] at h
      simp only [Node.insert, Node.Ordered]
      exact ⟨upsert_childrenOrdered frame _ ih children h.1,
        upsert_labels_sorted frame _ (Node.insert_label rest v) children h.2⟩

theorem InsertAll_Ordered (ins : List (Stack × Nat)) :
    ∀ t : Tree, t.root.Ordered → (t.InsertAll ins).root.Ordered := by
  induction ins with
  | nil => intro t h; exact h
  | cons e ins ih =>
    intro t h
    obtain ⟨stack, v⟩ := e
    simp only [Tree.InsertAll]
    exact ih _ (Node.insert_Ordered stack v t.root h)

theorem entriesOfChildren_mem (cs : List Node) (e : Stack × Nat)
    (h : e ∈ entriesOfChildren cs) :
    ∃ c, c ∈ cs ∧ ∃ e', e' ∈ c.entries ∧ e = (c.label :: e'.1, e'.2) := by
  induction cs with
  | nil => simp [entriesOfChildren] at h
  | cons c cs ih =>
    simp only [entriesOfChildren, List.mem_append, List.mem_map] at h
    rcases h with ⟨e', he', rfl⟩ | h
    · exact ⟨c, by simp, e', he', rfl⟩
    · obtain ⟨c', hc', hrest⟩ := ih h
      exact ⟨c', by simp [hc'], hrest⟩

mutual

theorem Node.entries_sorted : ∀ n : Node, n.Ordered →
    n.entries.Pairwise (fun a b => stackLt a.1 b.1 = true)
  | .mk label self children, h => by
    simp only [Node.Ordered] at h
    have hcs := entriesOfChildren_sorted children h.1 h.2
    simp only [Node.entries]
    split
    · simp only [List.singleton_append, List.pairwise_cons]
      refine ⟨?_, hcs⟩
      intro e he
      obtain ⟨c, _, e', _, rfl⟩ := entriesOfChildren_mem children e he
      simp [stackLt, lexLt]
    · simpa using hcs

theorem entriesOfChildren_sorted : ∀ cs : List Node, childrenOrdered cs →
    (cs.map Node.label).Pairwise (fun a b => bytesLt a b = true) →
    (entriesOfChildren cs).Pairwise (fun a b => stackLt a.1 b.1 = true)
  | [], _, _ => by simp [entriesOfChildren]
  | c :: cs, h, hl => by
    simp only [childrenOrdered] at h
    simp only [List.map_cons, List.pairwise_cons] at hl
    simp only [entriesOfChildren, List.pairwise_append]
    refine ⟨?_, entriesOfChildren_sorted cs h.2 hl.2, ?_⟩
    · rw [List.pairwise_map]
      refine (Node.entries_sorted c h.1).imp ?_
      intro a b hab
      simp only [stackLt, lexLt, decide_True, Bool.true_and, Bool.or_eq_true]
      exact Or.inr hab
    · intro a ha b hb
      simp only [List.mem_map] at ha
      obtain ⟨a', _, rfl⟩ := ha
      obtain ⟨c', hc', b', _, rfl⟩ := entriesOfChildren_mem cs b hb
      simp only [stackLt, lexLt, Bool.or_eq_true]
      exact Or.inl (hl.1 c'.label (List.mem_map_of_mem _ hc'))

end

theorem Node.entries_insert_perm (stack : Stack) (v : Nat) (hv : v % 2 ^ 64 ≠ 0) :
    ∀ n : Node, (∀ e, e ∈ n.entries → e.1 ≠ stack) →
      (n.insert stack v).entries.Perm ((stack, v % 2 ^ 64) :: n.entries) := by
  induction stack with
  | nil =>
    intro n h
    cases n with
    | mk label self children =>
      have hs : self = 0 := by
        by_contra hs
        exact h ([], self) (by simp [Node.entries, hs]) rfl
      subst hs
      simp only [Node.insert, Node.entries, ne_eq, not_true_eq_false, if_false,
        List.nil_append, Nat.zero_add]
      rw [if_pos hv]
      exact List.Perm.refl _
  | cons frame rest ih =>
    intro n h
    cases n with
    | mk label self children =>
      have hnew : (Node.insert rest v (.mk frame 0 [])).entries.Perm [(rest, v % 2 ^ 64)] := by
        have := ih (.mk frame 0 []) (by simp [Node.entries, entriesOfChildren])
        simpa [Node.entries, entriesOfChildren] using this
      have hch : ∀ cs : List Node,
          (∀ e, e ∈ entriesOfChildren cs → e.1 ≠ frame :: rest) →
          (entriesOfChildren (upsert frame (Node.insert rest v) cs)).Perm
            ((frame :: rest, v % 2 ^ 64) :: entriesOfChildren cs) := by
        intro cs
        induction cs with
        | nil =>
          intro _
          simp only [upsert, entriesOfChildren, List.append_nil, Node.insert_label]
          have := hnew.map (fun e : Stack × Nat => (frame :: e.1, e.2))
          simpa [Node.label] using this
        | cons c cs ihc =>
          intro hc
          simp only [upsert]
          split
          · rename_i heq
            simp only [entriesOfChildren, Node.insert_label]
            have hc' : ∀ e, e ∈ c.entries → e.1 ≠ rest := by
              intro e he hr
              refine hc (c.label :: e.1, e.2) ?_ (by simp [heq, hr])
              simp only [entriesOfChildren, List.mem_append, List.mem_map]
              exact Or.inl ⟨e, he, rfl⟩
            have := ((ih c hc').map (fun e : Stack × Nat => (c.label :: e.1, e.2))).append_right
              (entriesOfChildren cs)
            simpa [heq] using this
          · split
            · simp only [entriesOfChildren, Node.insert_label]
              have := (hnew.map (fun e : Stack × Nat => (frame :: e.1, e.2))).append_right
                (c.entries.map (fun e => (c.label :: e.1, e.2)) ++ entriesOfChildren cs)
              simpa [Node.label] using this
            · simp only [entriesOfChildren]
              have hcs : ∀ e, e ∈ entriesOfChildren cs → e.1 ≠ frame :: rest := by
                intro e he
                refine hc e ?_
                simp only [entriesOfChildren, List.mem_append]
                exact Or.inr he
              refine ((ihc hcs).append_left _).trans ?_
              exact List.perm_middle
      have hch' := hch children (by
        intro e he
        refine h e ?_
        simp only [Node.entries, List.mem_append]
        exact Or.inr he)
      simp only [Node.insert, Node.entries]
      refine (hch'.append_left _).trans ?_
      exact List.perm_middle

theorem InsertAll_entries_perm (ins : List (Stack × Nat)) :
    ∀ t : Tree, (ins.map Prod.fst).Nodup →
      (∀ e, e ∈ ins → 0 < e.2 ∧ e.2 < 2 ^ 64) →
      (∀ e, e ∈ ins → ∀ e', e' ∈ t.root.entries → e'.1 ≠ e.1) →
      (t.InsertAll ins).root.entries.Perm (ins ++ t.root.entries) := by
  induction ins with
  | nil => intro t _ _ _; exact List.Perm.refl _
  | cons e ins ih =>
    intro t hd hv hdis
    obtain ⟨stack, v⟩ := e
    simp only [List.map_cons, List.nodup_cons] at hd
    have hv0 := hv (stack, v) (by simp)
    have hmod : v % 2 ^ 64 = v := Nat.mod_eq_of_lt hv0.2
    have hstep : (t.Insert stack v).root.entries.Perm ((stack, v) :: t.root.entries) := by
      have := Node.entries_insert_perm stack v (by rw [hmod]; omega) t.root
        (fun e' he' => hdis (stack, v) (by simp) e' he')
      rw [hmod] at this
      exact this
    simp only [Tree.InsertAll]
    have := ih (t.Insert stack v) hd.2 (fun e he => hv e (by simp [he])) (by
      intro e he e' he'
      rcases List.mem_cons.mp (hstep.mem_iff.mp he') with rfl | hin
      · intro heq
        have heq' : stack = e.1 := heq
        exact hd.1 (by rw [heq']; exact List.mem_map_of_mem _ he)
      · exact hdis e (by simp [he]) e' hin)
    refine this.trans ?_
    refine (hstep.append_left ins).trans ?_
    exact List.perm_middle

end Storage

end Pyroscope

namespace Pyroscope

namespace Storage

open Bench

/-- C2: after inserts of `n` distinct stacks with positive values into the new tree,
`IterateWithStackBuilder` with a new `mockStackBuilder` returns, and calls `visit` exactly
`n` times, with the identifiers `0, ..., n-1` in this order. The stacks visited are the
inserted ones, each with its inserted value, in the order of the depth-first walk, which is
the order of `stackLt` (children by their labels, a stack before the stacks it starts); the
builder records the `j`-th of them under `j`, and a node that received no insert gets no
identifier. With no insert at all `visit` is never called. -/
theorem IterateWithStackBuilder_numbers_stacks (ins : List (Stack × Nat))
    (hd : (ins.map Prod.fst).Nodup) (hv : ∀ e, e ∈ ins → 0 < e.2 ∧ e.2 < 2 ^ 64) :
    ((New.InsertAll ins).root.entries).Perm ins ∧
    ((New.InsertAll ins).root.entries).Pairwise (fun a b => stackLt a.1 b.1 = true) ∧
    ∃ sb : mockStackBuilder,
      (New.InsertAll ins).IterateWithStackBuilder mockStackBuilder.new
        = some (sb, (((New.InsertAll ins).root.entries).map Prod.snd).enum) ∧
      ((((New.InsertAll ins).root.entries).map Prod.snd).enum).length = ins.length ∧
      ((((New.InsertAll ins).root.entries).map Prod.snd).enum).map Prod.fst
        = List.range ins.length ∧
      (∀ i, i ∈ sb.stackID2Stack.keys ↔ i < ins.length) ∧
      (∀ j e, ((New.InsertAll ins).root.entries)[j]? = some e →
        sb.stackID2Stack.lookup j = some (buildString e.1)) ∧
      sb.ss = [] := by
  have hnew : New.root.entries = [] := by simp [New, Node.entries, entriesOfChildren]
  have hperm : ((New.InsertAll ins).root.entries).Perm ins := by
    have := InsertAll_entries_perm ins New hd hv (by simp [hnew])
    simpa [hnew] using this
  have hord : (New.InsertAll ins).root.Ordered :=
    InsertAll_Ordered ins New (by simp [New, Node.Ordered, childrenOrdered])
  refine ⟨hperm, Node.entries_sorted _ hord, ?_⟩
  obtain ⟨sb, h1, h2, _, h4, _, h6⟩ :=
    iterateNode_Walked (New.InsertAll ins).root mockStackBuilder.new 0
      (Numbered_new [] ∅)
  have hlen : ((New.InsertAll ins).root.entries).length = ins.length := hperm.length_eq
  refine ⟨sb, ?_, ?_, ?_, ?_, ?_, ?_⟩
  · rw [Tree.IterateWithStackBuilder, h1]; rfl
  · simp [List.enum, hlen]
  · simp [List.enum, hlen, List.enumFrom_map_fst, List.range_eq_range']
  · intro i
    rw [h4.2 i, hlen, Nat.zero_add]
  · intro j e he
    have := h6 j e he
    rw [Nat.zero_add] at this
    simpa [mockStackBuilder.new] using this
  · rw [h2]; rfl

/-- Witness for C2: the six inserts of `TestIterateWithStackBuilder` give the identifiers
0 to 5 with the values 43, 42, 1, 2, 3, 4 and the stacks ``, `a`, `a;b`, `a;c`, `a;d;e`,
`a;d;f` (nothing for `a;d`), also when inserted in the reverse order; on the new tree
`visit` is not called. -/
theorem IterateWithStackBuilder_numbers_stacks_witness :
    ((New.InsertAll testInserts).IterateWithStackBuilder mockStackBuilder.new).map Prod.snd
      = some [(0, 43), (1, 42), (2, 1), (3, 2), (4, 3), (5, 4)] ∧
    ((New.InsertAll testInserts).IterateWithStackBuilder mockStackBuilder.new).map
        (fun r => (List.range 7).map (fun i => r.1.stackID2Stack.lookup i))
      = some [some [], some [97], some [97, 59, 98], some [97, 59, 99],
          some [97, 59, 100, 59, 101], some [97, 59, 100, 59, 102], none] ∧
    ((New.InsertAll testInserts).IterateWithStackBuilder mockStackBuilder.new).map
        (fun r => (List.range 7).map (fun i => (recordValues r.1 r.2).stackID2Val.lookup i))
      = some [some 43, some 42, some 1, some 2, some 3, some 4, none] ∧
    ((New.InsertAll testInserts.reverse).IterateWithStackBuilder mockStackBuilder.new).map
        Prod.snd
      = some [(0, 43), (1, 42), (2, 1), (3, 2), (4, 3), (5, 4)] ∧
    New.IterateWithStackBuilder mockStackBuilder.new = some (mockStackBuilder.new, []) ∧
    ((New.InsertAll testInserts).root.entries).Perm testInserts ∧
    ((New.InsertAll testInserts).root.entries).Pairwise (fun a b => stackLt a.1 b.1 = true) :=
  have h := IterateWithStackBuilder_numbers_stacks testInserts (by decide) (by decide)
  ⟨by decide, by decide, by decide, by decide, by rfl, h.1, h.2.1⟩

end Storage

end Pyroscope

/-! ## Theorems about the ingest handler -/

namespace Pyroscope

namespace Server

section

variable {Key Time Body Ctx : Type}

theorem putCalls_log (log : List (GoError × String × String))
    (es : List (Event Key Time Body Ctx)) :
    putCalls (log.map (fun l => Event.logErrorf l.1 l.2.1 l.2.2) ++ es) = putCalls es := by
  induction log with
  | nil => rfl
  | cons l log ih => simpa [putCalls] using ih

theorem onSuccessCalls_log (log : List (GoError × String × String))
    (es : List (Event Key Time Body Ctx)) :
    onSuccessCalls (log.map (fun l => Event.logErrorf l.1 l.2.1 l.2.2) ++ es)
      = onSuccessCalls es := by
  induction log with
  | nil => rfl
  | cons l log ih => simpa [onSuccessCalls] using ih

theorem writeErrorCalls_log (log : List (GoError × String × String))
    (es : List (Event Key Time Body Ctx)) :
    writeErrorCalls (log.map (fun l => Event.logErrorf l.1 l.2.1 l.2.2) ++ es)
      = writeErrorCalls es := by
  induction log with
  | nil => rfl
  | cons l log ih => simpa [writeErrorCalls] using ih

theorem ServeHTTP_of_error (d : Deps Key Time)
    (put : Ctx → PutInput Key Time Body → Option GoError × Option GoError)
    (r : Request Body Ctx) (e : GoError) (log : List (GoError × String × String))
    (h : ingestParamsFromRequest d r = (.error e, log)) :
    ServeHTTP d put r = log.map (fun l => Event.logErrorf l.1 l.2.1 l.2.2) ++
      [.WriteError StatusBadRequest (some e) "invalid parameter"] := by
  simp only [ServeHTTP, h]

theorem ServeHTTP_of_ok (d : Deps Key Time)
    (put : Ctx → PutInput Key Time Body → Option GoError × Option GoError)
    (r : Request Body Ctx) (pi : PutInput Key Time Body)
    (log : List (GoError × String × String))
    (h : ingestParamsFromRequest d r = (.ok pi, log)) :
    ServeHTTP d put r =
      log.map (fun l => Event.logErrorf l.1 l.2.1 l.2.2) ++ [.Put r.Context pi] ++
        if (put r.Context pi).1 ≠ none then
          [.WriteError StatusUnprocessableEntity (put r.Context pi).1
            "error happened while parsing request body"]
        else if (put r.Context pi).2 ≠ none then
          [.WriteError StatusInternalServerError (put r.Context pi).1
            "error happened while ingesting data"]
        else [.onSuccess pi] := by
  simp only [ServeHTTP, h]

end

end Server

end Pyroscope

namespace Pyroscope

namespace Server

section

variable {Key Time Body Ctx : Type}

/-- C7: `ServeHTTP` ends in exactly one of four ways. When the parameters are rejected it
calls `WriteError` once, with status 400, and never calls `Put`. Otherwise it calls `Put`
exactly once; a parsing error gives one `WriteError` with status 422 whatever the ingestion
error is, no parsing error and an ingestion error gives one `WriteError` with status 500, and
no error at all gives no `WriteError`. `onSuccess` is called at most once, exactly when the
parameters were accepted and `Put` returned no error, and never next to a `WriteError`. -/
theorem ServeHTTP_outcomes (d : Deps Key Time)
    (put : Ctx → PutInput Key Time Body → Option GoError × Option GoError)
    (r : Request Body Ctx) :
    (∀ e, (ingestParamsFromRequest d r).1 = .error e →
      writeErrorCalls (ServeHTTP d put r) = [(StatusBadRequest, some e)] ∧
      putCalls (ServeHTTP d put r) = [] ∧
      onSuccessCalls (ServeHTTP d put r) = []) ∧
    (∀ pi, (ingestParamsFromRequest d r).1 = .ok pi →
      putCalls (ServeHTTP d put r) = [pi] ∧
      (∀ e, (put r.Context pi).1 = some e →
        writeErrorCalls (ServeHTTP d put r) = [(StatusUnprocessableEntity, some e)] ∧
        onSuccessCalls (ServeHTTP d put r) = []) ∧
      ((put r.Context pi).1 = none → (put r.Context pi).2 ≠ none →
        (writeErrorCalls (ServeHTTP d put r)).map Prod.fst = [StatusInternalServerError] ∧
        onSuccessCalls (ServeHTTP d put r) = []) ∧
      ((put r.Context pi).1 = none → (put r.Context pi).2 = none →
        writeErrorCalls (ServeHTTP d put r) = [] ∧
        onSuccessCalls (ServeHTTP d put r) = [pi])) ∧
    (onSuccessCalls (ServeHTTP d put r)).length ≤ 1 ∧
    ((onSuccessCalls (ServeHTTP d put r)).length = 1 ↔
      ∃ pi, (ingestParamsFromRequest d r).1 = .ok pi ∧ put r.Context pi = (none, none)) ∧
    (onSuccessCalls (ServeHTTP d put r) = [] ∨ writeErrorCalls (ServeHTTP d put r) = []) := by
  rcases hp : ingestParamsFromRequest d r with ⟨res, log⟩
  cases res with
  | error e0 =>
    rw [ServeHTTP_of_error d put r e0 log hp]
    simp [writeErrorCalls_log, putCalls_log, onSuccessCalls_log, writeErrorCalls, putCalls,
      onSuccessCalls]
  | ok pi0 =>
    rw [ServeHTTP_of_ok d put r pi0 log hp]
    rcases hput : put r.Context pi0 with ⟨perr, ierr⟩
    cases perr with
    | some e1 =>
      simp [hput, writeErrorCalls_log, putCalls_log, onSuccessCalls_log, writeErrorCalls,
        putCalls, onSuccessCalls, List.append_assoc]
    | none =>
      cases ierr with
      | some e2 =>
        simp [hput, writeErrorCalls_log, putCalls_log, onSuccessCalls_log, writeErrorCalls,
          putCalls, onSuccessCalls, List.append_assoc]
      | none =>
        simp [hput, writeErrorCalls_log, putCalls_log, onSuccessCalls_log, writeErrorCalls,
          putCalls, onSuccessCalls, List.append_assoc]

/-- Witness for C7: a request without `name` is answered with status 400 and `Put` is not
called; a request with a name is handed to `Put` exactly once. -/
theorem ServeHTTP_outcomes_witness :
    (ingestParamsFromRequest exampleDeps exampleRequestNoName).1
      = .error (ErrorfName (.errorString "empty key")) ∧
    (writeErrorCalls (ServeHTTP exampleDeps examplePutIngestFails exampleRequestNoName)
      = [(400, some (ErrorfName (.errorString "empty key")))] ∧
    putCalls (ServeHTTP exampleDeps examplePutIngestFails exampleRequestNoName) = [] ∧
    onSuccessCalls (ServeHTTP exampleDeps examplePutIngestFails exampleRequestNoName) = []) ∧
    (ingestParamsFromRequest exampleDeps exampleRequest).1 = .ok examplePutInput ∧
    putCalls (ServeHTTP exampleDeps examplePutIngestFails exampleRequest) = [examplePutInput] :=
  ⟨by decide,
   (ServeHTTP_outcomes exampleDeps examplePutIngestFails exampleRequestNoName).1
     (ErrorfName (.errorString "empty key")) (by decide),
   by decide,
   ((ServeHTTP_outcomes exampleDeps examplePutIngestFails exampleRequest).2.1
     examplePutInput (by decide)).1⟩

/-- C8 on the code: with accepted parameters, no parsing error and an ingestion error `e`,
the error handed to `WriteError` along with status 500 is the parsing error, that is `nil`,
and not `e`. -/
theorem ServeHTTP_ingest_error_dropped (d : Deps Key Time)
    (put : Ctx → PutInput Key Time Body → Option GoError × Option GoError)
    (r : Request Body Ctx) (pi : PutInput Key Time Body) (e : GoError)
    (hp : (ingestParamsFromRequest d r).1 = .ok pi)
    (hput : put r.Context pi = (none, some e)) :
    writeErrorCalls (ServeHTTP d put r) = [(StatusInternalServerError, none)] ∧
    (StatusInternalServerError, some e) ∉ writeErrorCalls (ServeHTTP d put r) := by
  rcases hp' : ingestParamsFromRequest d r with ⟨res, log⟩
  rw [hp'] at hp
  simp only at hp
  subst hp
  rw [ServeHTTP_of_ok d put r pi log hp', hput]
  simp [writeErrorCalls_log, writeErrorCalls, List.append_assoc]

/-- The failing input of C8: `exampleRequest` is accepted, `Put` reports that the storage is
unavailable, and `WriteError` receives status 500 with a nil error. -/
theorem ServeHTTP_ingest_error_dropped_witness :
    (ingestParamsFromRequest exampleDeps exampleRequest).1 = .ok examplePutInput ∧
    examplePutIngestFails exampleRequest.Context examplePutInput
      = (none, some (.errorString "storage unavailable")) ∧
    writeErrorCalls (ServeHTTP exampleDeps examplePutIngestFails exampleRequest)
      = [(500, none)] ∧
    (500, some (GoError.errorString "storage unavailable")) ∉
      writeErrorCalls (ServeHTTP exampleDeps examplePutIngestFails exampleRequest) :=
  ⟨by decide, by decide,
   ServeHTTP_ingest_error_dropped exampleDeps examplePutIngestFails exampleRequest
     examplePutInput (.errorString "storage unavailable") (by decide) (by decide)⟩

/-- C9: `ingestParamsFromRequest` returns an error exactly when `segment.ParseKey` rejects
the `name` parameter; the error is then the `ParseKey` error wrapped by
`fmt.Errorf("name: %w", err)`, so its message is `name: ` followed by the message of the
`ParseKey` error. A `sampleRate` that `strconv.Atoi` rejects is no error: the sample rate is
then `types.DefaultSampleRate`, as it is when the parameter is empty or absent. -/
theorem ingestParamsFromRequest_error_iff (d : Deps Key Time) (r : Request Body Ctx) :
    ((∃ e, (ingestParamsFromRequest d r).1 = .error e) ↔
      ∃ e, d.ParseKey (r.Query.Get "name") = .error e) ∧
    (∀ e, d.ParseKey (r.Query.Get "name") = .error e →
      (ingestParamsFromRequest d r).1 = .error (ErrorfName e) ∧
      (ErrorfName e).Unwrap = some e ∧
      (ErrorfName e).Error = "name: " ++ e.Error) ∧
    (∀ key, d.ParseKey (r.Query.Get "name") = .ok key →
      ∃ pi, (ingestParamsFromRequest d r).1 = .ok pi ∧ pi.Key = key ∧
        ((r.Query.Get "sampleRate" = "" ∨ ∃ e, d.Atoi (r.Query.Get "sampleRate") = .error e) →
          pi.SampleRate = d.DefaultSampleRate)) := by
  refine ⟨?_, ?_, ?_⟩
  · cases hk : d.ParseKey (r.Query.Get "name") with
    | error e => simp [ingestParamsFromRequest, hk]
    | ok key => simp [ingestParamsFromRequest, hk]
  · intro e hk
    refine ⟨by simp [ingestParamsFromRequest, hk], rfl, rfl⟩
  · intro key hk
    simp only [ingestParamsFromRequest, hk]
    refine ⟨_, rfl, rfl, ?_⟩
    rintro (h | ⟨e, h⟩)
    · simp [sampleRateFromQuery, h]
    · simp only [sampleRateFromQuery, h]
      split <;> rfl

/-- Witness for C9: `name=app&sampleRate=abc` is accepted with the default sample rate, and
a request without `name` is rejected with the wrapped `ParseKey` error. -/
theorem ingestParamsFromRequest_error_iff_witness :
    exampleDeps.ParseKey (exampleRequestNoName.Query.Get "name")
      = .error (.errorString "empty key") ∧
    (ingestParamsFromRequest exampleDeps exampleRequestNoName).1
      = .error (.wrapError "name: empty key" (.errorString "empty key")) ∧
    exampleDeps.Atoi (exampleRequest.Query.Get "sampleRate")
      = .error (.errorString "invalid syntax") ∧
    (ingestParamsFromRequest exampleDeps exampleRequest).1 = .ok examplePutInput ∧
    examplePutInput.SampleRate = exampleDeps.DefaultSampleRate :=
  ⟨by decide,
   ((ingestParamsFromRequest_error_iff exampleDeps exampleRequestNoName).2.1
     (.errorString "empty key") (by decide)).1,
   by decide, by decide, by decide⟩

end

end Server

end Pyroscope
